import Mathlib

/-!
Verification of the CSR matrix core of `spatial_stats`
(`src/ext/spatial_stats/csr_matrix.c`), shallowly embedded.

The C extension converts a Dictionary-of-Keys input (a Ruby Hash from row
identifier to a list of `{id:, weight:}` entry hashes) into Compressed
Sparse Row form and answers read-only queries against it.  Ruby dynamic
typing is modelled explicitly where the code inspects it (`Check_Type`,
`nil` results of `rb_hash_aref`); machine doubles are modelled as `ℚ`
(the numeric claims checked here involve only exact values and identical
accumulation orders); fallible code returns `Except RubyError`.
-/

deriving instance DecidableEq for Except

/-- Ruby exception classes raised by (or attributed by the spec to) the CSR
core.  `argError msg` models `rb_raise(rb_eArgError, msg)`; `typeError`
models a `Check_Type` failure as well as `NUM2INT`/`NUM2DBL` applied to
`nil`; `keyError` models `rb_eKeyError`, which the spec names but the code
never raises. -/
inductive RubyError where
  | argError (msg : String)
  | typeError
  | keyError
  deriving DecidableEq

/-- An object found in a row entry list of the input.  `Check_Type(entry,
T_HASH)` demands a Hash; a Hash entry carries the results of
`rb_hash_aref(entry, :id)` and `rb_hash_aref(entry, :weight)` where `none`
models `nil` (a missing field; a non-numeric `:weight` is conflated with a
missing one, both making `NUM2DBL` raise the same TypeError). -/
inductive RubyEntry (α : Type) where
  | hash (id : Option α) (weight : Option ℚ)
  | nonHash
  deriving DecidableEq

/-- A value stored under a key of the input Hash `data`.  `Check_Type(row,
T_ARRAY)` demands an Array of entries; `nonArr` is any other object. -/
inductive RubyRow (α : Type) where
  | arr (es : List (RubyEntry α))
  | nonArr
  deriving DecidableEq

/-- The C struct `csr_matrix` of `csr_matrix.h`: row count `n`, non-zero
count `nnz`, and the contents of the three malloc'd buffers. -/
structure csr_matrix where
  n : Nat
  nnz : Nat
  values : List ℚ
  col_index : List Nat
  row_index : List Nat
  deriving DecidableEq

/-- The ordered key list `data.keys` of the input Hash.  A Ruby Hash
enumerates keys in insertion order and its keys are distinct, so
`rb_hash_aref(data, keys[i])` is the value stored in the i-th pair; the
embedding therefore walks the pairs positionally. -/
def keysOf {α : Type} (data : List (α × RubyRow α)) : List α := data.map Prod.fst

/-- The key-to-index lookup of `mat_to_sparse`: pass 1 executes
`rb_hash_aset(key_lookup, keys[i], i)` for `i = 0..n-1` in order (a later
duplicate key would overwrite an earlier index), and `lookupIdx keys k` is
the final `rb_hash_aref(key_lookup, k)`, with `none` modelling the `nil` of
a lookup miss. -/
def lookupIdx {α : Type} [DecidableEq α] (keys : List α) (k : α) : Option Nat :=
  keys.enum.foldl (fun acc p => if p.2 = k then some p.1 else acc) none

/-- Body of the inner loop of pass 2 of `mat_to_sparse` for one entry:
`Check_Type(entry, T_HASH)`, then `weight = NUM2DBL(rb_hash_aref(entry,
weight_sym))` (TypeError when that is `nil`), then `NUM2INT(
rb_hash_aref(key_lookup, key))` where `key = rb_hash_aref(entry, id_sym)`
(TypeError when the lookup misses, `NUM2INT` being applied to `nil`; a
`nil` `key` also misses, the keys of `key_lookup` being the row
identifiers).  On success the entry contributes `weight` to `values` and
the resolved index to `col_index`. -/
def entryToPair {α : Type} [DecidableEq α] (keys : List α) :
    RubyEntry α → Except RubyError (ℚ × Nat)
  | .nonHash => .error .typeError
  | .hash idv wv =>
    match wv with
    | none => .error .typeError
    | some w =>
      match idv with
      | none => .error .typeError
      | some i =>
        match lookupIdx keys i with
        | none => .error .typeError
        | some c => .ok (w, c)

/-- Pass 1 of `mat_to_sparse`: for each key in order, check that the stored
row is an Array (`Check_Type(row, T_ARRAY)`, TypeError otherwise) and add
its length to the running non-zero count `nnz`. -/
def pass1 {α : Type} : List (α × RubyRow α) → Except RubyError Nat
  | [] => .ok 0
  | (_, .nonArr) :: _ => .error .typeError
  | (_, .arr es) :: rest =>
    match pass1 rest with
    | .error e => .error e
    | .ok k => .ok (es.length + k)

/-- Pass 2 of `mat_to_sparse`: for each row in order, record
`row_index[i] = nz_idx`, then for each of its entries append the weight to
`values` and the resolved column to `col_index`.  Returns
`(values, col_index, row_index without its final entry)`; the caller
appends `row_index[n] = nnz`.  The `.nonArr` case is unreachable, pass 1
having already checked every row. -/
def fillRows {α : Type} [DecidableEq α] (keys : List α) :
    Nat → List (α × RubyRow α) → Except RubyError (List ℚ × List Nat × List Nat)
  | _, [] => .ok ([], [], [])
  | _, (_, .nonArr) :: _ => .error .typeError
  | off, (_, .arr es) :: rest =>
    match es.mapM (entryToPair keys) with
    | .error e => .error e
    | .ok ps =>
      match fillRows keys (off + es.length) rest with
      | .error e => .error e
      | .ok (vs, cs, ros) =>
        .ok (ps.map Prod.fst ++ vs, ps.map Prod.snd ++ cs, off :: ros)

/-- The function `mat_to_sparse`: pass 1 counts `nnz`, the three buffers are
then allocated, pass 2 fills them, and finally `row_index[n] = nnz`. -/
def mat_to_sparse {α : Type} [DecidableEq α] (data : List (α × RubyRow α)) :
    Except RubyError csr_matrix :=
  match pass1 data with
  | .error e => .error e
  | .ok nnz =>
    match fillRows (keysOf data) 0 data with
    | .error e => .error e
    | .ok (vs, cs, ros) => .ok ⟨data.length, nnz, vs, cs, ros ++ [nnz]⟩

/-- Message of the `rb_raise` guarding construction dimensions. -/
def dimKeysMsg : String := "n_rows != keys.size, check your dimensions"

/-- Message of the `rb_raise` guarding the vector length in
`csr_matrix_mulvec` and `csr_matrix_dot_row`. -/
def dimVecMsg : String := "Dimension Mismatch CSRMatrix.n != vec.size"

/-- Message of the `rb_raise` guarding the row index in
`csr_matrix_dot_row`. -/
def idxRowMsg : String := "Index Error row_idx >= m or idx < 0"

/-- The function `csr_matrix_initialize`: `data` must be a Hash and
`num_rows` an integer (both typed away here); `keys = data.keys`; when
`NUM2INT(num_rows) != RARRAY_LEN(keys)` it raises ArgumentError, otherwise
`mat_to_sparse` builds the matrix. -/
def csr_matrix_initialize {α : Type} [DecidableEq α] (data : List (α × RubyRow α))
    (num_rows : Int) : Except RubyError csr_matrix :=
  if num_rows ≠ (data.length : Int) then .error (.argError dimKeysMsg)
  else mat_to_sparse data

/-- The accessor `csr_matrix_values`: copies `values[0..nnz-1]`, i.e. the
whole buffer of a constructed matrix, into a fresh Array. -/
def csr_matrix_values (m : csr_matrix) : List ℚ := m.values

/-- The accessor `csr_matrix_col_index`: copies `col_index[0..nnz-1]`. -/
def csr_matrix_col_index (m : csr_matrix) : List Nat := m.col_index

/-- The accessor `csr_matrix_row_index`: copies `row_index[0..n]`. -/
def csr_matrix_row_index (m : csr_matrix) : List Nat := m.row_index

/-- The function `csr_matrix_mulvec`: after `Check_Type(vec, T_ARRAY)`
(typed away) it raises ArgumentError when `RARRAY_LEN(vec) != csr->n`;
otherwise, for each row `i`, it accumulates
`values[jj] * vec[col_index[jj]]` over `jj ∈ [row_index[i],
row_index[i+1])` in storage order.  Array reads are modelled with `getD`
(for every constructed matrix they are in bounds, see the shape
invariants). -/
def csr_matrix_mulvec (m : csr_matrix) (vec : List ℚ) :
    Except RubyError (List ℚ) :=
  if vec.length ≠ m.n then .error (.argError dimVecMsg)
  else .ok ((List.range m.n).map (fun i =>
    (List.range' (m.row_index.getD i 0)
        (m.row_index.getD (i + 1) 0 - m.row_index.getD i 0)).foldl
      (fun tmp jj => tmp + m.values.getD jj 0 * vec.getD (m.col_index.getD jj 0) 0) 0))

/-- The function `csr_matrix_dot_row`: the same vector-length guard as
`csr_matrix_mulvec`, then `i = NUM2INT(row)` must satisfy
`i >= 0 && i < csr->n` (ArgumentError with a distinct message otherwise),
then the same accumulation loop as `csr_matrix_mulvec`, run for the single
row `i`. -/
def csr_matrix_dot_row (m : csr_matrix) (vec : List ℚ) (row : Int) :
    Except RubyError ℚ :=
  if vec.length ≠ m.n then .error (.argError dimVecMsg)
  else if ¬(0 ≤ row ∧ row < (m.n : Int)) then .error (.argError idxRowMsg)
  else
    .ok ((List.range' (m.row_index.getD row.toNat 0)
        (m.row_index.getD (row.toNat + 1) 0 - m.row_index.getD row.toNat 0)).foldl
      (fun tmp jj => tmp + m.values.getD jj 0 * vec.getD (m.col_index.getD jj 0) 0) 0)

/-- The effect of `rb_hash_aset h k v` on a Ruby Hash viewed as an ordered
association list: an existing key keeps its position and receives the new
value, a new key is appended at the end. -/
def updateAssoc {κ ν : Type} [DecidableEq κ] :
    List (κ × ν) → κ → ν → List (κ × ν)
  | [], k, v => [(k, v)]
  | p :: rest, k, v =>
    if p.1 = k then (k, v) :: rest else p :: updateAssoc rest k v

/-- Loop of `csr_matrix_coordinates` over `k = 0..nnz-1`, carrying the
current row `i` and the boundary `row_end`: when `k == row_end` it advances
`i` once and reloads `row_end = row_index[i+1]` (for the advanced `i`),
then stores `[i, col_index[k]] => values[k]` into the result Hash.  Array
reads are modelled with `get?`; `none` marks an out-of-bounds C array
read. -/
def coordLoop (m : csr_matrix) :
    List Nat → Nat → Nat → List ((Nat × Nat) × ℚ) →
    Option (List ((Nat × Nat) × ℚ))
  | [], _, _, acc => some acc
  | k :: ks, i, row_end, acc =>
    if k = row_end then
      match m.row_index.get? (i + 2), m.col_index.get? k, m.values.get? k with
      | some re, some c, some v =>
        coordLoop m ks (i + 1) re (updateAssoc acc (i + 1, c) v)
      | _, _, _ => none
    else
      match m.col_index.get? k, m.values.get? k with
      | some c, some v => coordLoop m ks i row_end (updateAssoc acc (i, c) v)
      | _, _ => none

/-- The function `csr_matrix_coordinates`: it reads `row_end =
row_index[1]` unconditionally before the loop (an out-of-bounds read when
the matrix has `n = 0`, the buffer then holding only `row_index[0]`), then
walks all non-zeros with `coordLoop`. -/
def csr_matrix_coordinates (m : csr_matrix) :
    Option (List ((Nat × Nat) × ℚ)) :=
  match m.row_index.get? 1 with
  | none => none
  | some re => coordLoop m (List.range m.nnz) 0 re []

/-- Modelled from the spec (refinement target for the round-trip claim):
"for each input entry (row identifier r, neighbor id c, weight w), the key
(index of r, index of c) maps to w", rows being indexed from `i0` in input
order and neighbor ids resolved through the same key-to-index assignment. -/
def specCoordsFrom {α : Type} [DecidableEq α] (keys : List α) :
    Nat → List (α × RubyRow α) → List ((Nat × Nat) × ℚ)
  | _, [] => []
  | i0, (_, row) :: rest =>
    (match row with
     | .arr es =>
       es.filterMap (fun e =>
         match e with
         | .hash (some eid) (some w) =>
           (lookupIdx keys eid).map (fun c => ((i0, c), w))
         | _ => none)
     | .nonArr => []) ++ specCoordsFrom keys (i0 + 1) rest

/-- Modelled from the spec: all (row index, col index) to weight triples of
a DOK input, in row-major input order. -/
def specCoords {α : Type} [DecidableEq α] (data : List (α × RubyRow α)) :
    List ((Nat × Nat) × ℚ) :=
  specCoordsFrom (keysOf data) 0 data

/-- Length of a row value as pass 1 counts it (`RARRAY_LEN`). -/
def rowLen {α : Type} : RubyRow α → Nat
  | .arr es => es.length
  | .nonArr => 0

/-- Sum of the lengths of all row entry lists of a DOK input. -/
def sumLens {α : Type} (data : List (α × RubyRow α)) : Nat :=
  (data.map (fun p => rowLen p.2)).sum

/-- Whether construction reaches the three `malloc` calls, which sit
between pass 1 and pass 2 of `mat_to_sparse`: the dimension guard of
`csr_matrix_initialize` and all of pass 1 must have succeeded. -/
def allocationReached {α : Type} (data : List (α × RubyRow α)) (num_rows : Int) : Bool :=
  num_rows == (data.length : Int) && (pass1 data).toOption.isSome

/-- Replacement of every present weight through `f`, leaving ids, row
structure and ill-typed objects untouched. -/
def reweightEntry {α : Type} (f : ℚ → ℚ) : RubyEntry α → RubyEntry α
  | .hash i w => .hash i (w.map f)
  | .nonHash => .nonHash

/-- Row-level weight replacement. -/
def reweightRow {α : Type} (f : ℚ → ℚ) : RubyRow α → RubyRow α
  | .arr es => .arr (es.map (reweightEntry f))
  | .nonArr => .nonArr

/-- Input-level weight replacement: the same DOK input with every weight `w`
replaced by `f w`. -/
def reweight {α : Type} (f : ℚ → ℚ) (data : List (α × RubyRow α)) :
    List (α × RubyRow α) :=
  data.map (fun p => (p.1, reweightRow f p.2))

/-- Row offsets determined by resolved per-row entry lists: the contents of
`row_index[0..n-1]` as pass 2 writes them, starting at `off`. -/
def offsList (off : Nat) : List (List (ℚ × Nat)) → List Nat
  | [] => []
  | r :: rest => off :: offsList (off + r.length) rest

/-- Triples emitted row-major from resolved rows, rows indexed from `i0`. -/
def emitRows (i0 : Nat) : List (List (ℚ × Nat)) → List ((Nat × Nat) × ℚ)
  | [] => []
  | r :: rest => r.map (fun p => ((i0, p.2), p.1)) ++ emitRows (i0 + 1) rest

/-- Total number of resolved entries across rows. -/
def totalLen (R : List (List (ℚ × Nat))) : Nat := (R.map List.length).sum

/-- The full `row_index` buffer contents determined by resolved rows. -/
def offsFull (off : Nat) (R : List (List (ℚ × Nat))) : List Nat :=
  offsList off R ++ [off + totalLen R]

/-- Resolved-rows relation: each input row is an Array whose entries all
resolve through `entryToPair` (over the key ordering of `data`) to the
corresponding row of resolved (weight, column) pairs. -/
def RowsRel {α : Type} [DecidableEq α] (data : List (α × RubyRow α))
    (R : List (List (ℚ × Nat))) : Prop :=
  List.Forall₂ (fun p r => ∃ es, p.2 = RubyRow.arr es ∧
    es.mapM (entryToPair (keysOf data)) = Except.ok r) data R

/-- Whether an entry carries an id that does not appear among the declared
row identifiers (the key lookup misses on it). -/
def unresolvedIn {α : Type} [DecidableEq α] (keys : List α) : RubyEntry α → Bool
  | .hash (some eid) _ => if eid ∈ keys then false else true
  | _ => false

/-- An input with an empty middle row: rows a and c are nonempty, row b is
empty. -/
def emptyRowData : List (String × RubyRow String) :=
  [("a", .arr [.hash (some "a") (some 1)]),
   ("b", .arr []),
   ("c", .arr [.hash (some "c") (some 2)])]

/-- The example input of the constructor documentation and of spec §8.3. -/
def exData : List (String × RubyRow String) :=
  [("a", .arr [.hash (some "c") (some 1)]),
   ("b", .arr [.hash (some "b") (some 1)]),
   ("c", .arr [.hash (some "a") (some 1)])]

example : csr_matrix_initialize exData 3 =
    .ok ⟨3, 3, [1, 1, 1], [2, 1, 0], [0, 1, 2, 3]⟩ := by decide

example : csr_matrix_mulvec ⟨3, 3, [1, 1, 1], [2, 1, 0], [0, 1, 2, 3]⟩ [1, 2, 3] =
    .ok [3, 2, 1] := by
  norm_num [csr_matrix_mulvec, List.range_succ, List.range']
example : csr_matrix_dot_row ⟨3, 3, [1, 1, 1], [2, 1, 0], [0, 1, 2, 3]⟩ [1, 2, 3] 1 =
    .ok 2 := by
  norm_num [csr_matrix_dot_row, List.range', idxRowMsg, dimVecMsg]

/-! ### The key lookup -/

theorem foldl_lookup_some {α : Type} [DecidableEq α] (k : α) :
    ∀ (l : List (Nat × α)) (acc : Option Nat) (i : Nat),
      l.foldl (fun acc p => if p.2 = k then some p.1 else acc) acc = some i →
      acc = some i ∨ ∃ p ∈ l, p.2 = k ∧ p.1 = i := by
  intro l
  induction l with
  | nil => exact fun acc i h => Or.inl h
  | cons p rest ih =>
    intro acc i h
    rw [List.foldl_cons] at h
    rcases ih _ i h with h' | ⟨q, hq, hqk, hqi⟩
    · by_cases hpk : p.2 = k
      · rw [if_pos hpk] at h'
        exact Or.inr ⟨p, List.mem_cons_self p rest, hpk, Option.some.inj h'⟩
      · rw [if_neg hpk] at h'
        exact Or.inl h'
    · exact Or.inr ⟨q, List.mem_cons_of_mem p hq, hqk, hqi⟩

theorem lookupIdx_some {α : Type} [DecidableEq α] {keys : List α} {k : α} {i : Nat}
    (h : lookupIdx keys k = some i) : i < keys.length ∧ keys.get? i = some k := by
  rcases foldl_lookup_some k keys.enum none i h with h' | ⟨p, hp, hpk, hpi⟩
  · exact absurd h' (by simp)
  · rw [List.mem_enum_iff_getElem?] at hp
    rw [hpi, hpk] at hp
    refine ⟨?_, ?_⟩
    · exact (List.getElem?_eq_some.mp hp).1
    · rw [List.get?_eq_getElem?]
      exact hp

theorem lookupIdx_lt {α : Type} [DecidableEq α] {keys : List α} {k : α} {i : Nat}
    (h : lookupIdx keys k = some i) : i < keys.length :=
  (lookupIdx_some h).1

theorem lookupIdx_mem {α : Type} [DecidableEq α] {keys : List α} {k : α} {i : Nat}
    (h : lookupIdx keys k = some i) : k ∈ keys := by
  have h2 := (lookupIdx_some h).2
  exact List.get?_mem h2

/-! ### mapM over the Except monad -/

theorem mapM_ok_forall₂ {β γ : Type} (f : β → Except RubyError γ) :
    ∀ (es : List β) (ps : List γ), es.mapM f = .ok ps →
      List.Forall₂ (fun e p => f e = .ok p) es ps := by
  intro es
  induction es with
  | nil =>
    intro ps h
    simp only [List.mapM_nil, pure, Except.pure] at h
    cases h
    exact List.Forall₂.nil
  | cons e rest ih =>
    intro ps h
    rw [List.mapM_cons] at h
    cases hfe : f e with
    | error err => rw [hfe] at h; simp [Bind.bind, Except.bind] at h
    | ok p =>
      rw [hfe] at h
      cases hrest : rest.mapM f with
      | error err =>
        rw [hrest] at h
        simp [Bind.bind, Except.bind, pure, Except.pure] at h
      | ok qs =>
        rw [hrest] at h
        simp only [Bind.bind, Except.bind, pure, Except.pure, Except.ok.injEq] at h
        cases h
        exact List.Forall₂.cons hfe (ih qs hrest)

theorem mapM_ok_length {β γ : Type} {f : β → Except RubyError γ} {es : List β}
    {ps : List γ} (h : es.mapM f = .ok ps) : ps.length = es.length :=
  (mapM_ok_forall₂ f es ps h).length_eq.symm

theorem forall₂_mem_left {β γ : Type} {R : β → γ → Prop} {es : List β} {ps : List γ}
    (h : List.Forall₂ R es ps) : ∀ e ∈ es, ∃ p ∈ ps, R e p := by
  induction h with
  | nil => intro e he; cases he
  | cons hR _ ih =>
    intro e he
    rcases List.mem_cons.mp he with rfl | hmem
    · exact ⟨_, List.mem_cons_self _ _, hR⟩
    · rcases ih e hmem with ⟨p, hp, hRp⟩
      exact ⟨p, List.mem_cons_of_mem _ hp, hRp⟩

theorem mapM_ok_of_mem {β γ : Type} {f : β → Except RubyError γ} {es : List β}
    {ps : List γ} (h : es.mapM f = .ok ps) {e : β} (he : e ∈ es) :
    ∃ p ∈ ps, f e = .ok p :=
  forall₂_mem_left (mapM_ok_forall₂ f es ps h) e he

theorem mapM_error_mem {β γ : Type} (f : β → Except RubyError γ) :
    ∀ (es : List β) (err : RubyError), es.mapM f = .error err →
      ∃ e ∈ es, f e = .error err := by
  intro es
  induction es with
  | nil =>
    intro err h
    simp only [List.mapM_nil, pure, Except.pure] at h
    cases h
  | cons e rest ih =>
    intro err h
    rw [List.mapM_cons] at h
    cases hfe : f e with
    | error e' =>
      rw [hfe] at h
      simp only [Bind.bind, Except.bind, Except.error.injEq] at h
      cases h
      exact ⟨e, List.mem_cons_self e rest, hfe⟩
    | ok p =>
      rw [hfe] at h
      cases hrest : rest.mapM f with
      | error e' =>
        rw [hrest] at h
        simp only [Bind.bind, Except.bind, Except.error.injEq] at h
        cases h
        rcases ih _ hrest with ⟨e2, he2, hfe2⟩
        exact ⟨e2, List.mem_cons_of_mem e he2, hfe2⟩
      | ok qs =>
        rw [hrest] at h
        simp [Bind.bind, Except.bind, pure, Except.pure] at h

theorem entryToPair_error {α : Type} [DecidableEq α] {keys : List α}
    {e : RubyEntry α} {err : RubyError} (h : entryToPair keys e = .error err) :
    err = RubyError.typeError := by
  cases e with
  | nonHash => cases h; rfl
  | hash idv wv =>
    cases wv with
    | none => cases h; rfl
    | some w =>
      cases idv with
      | none => cases h; rfl
      | some i =>
        cases hl : lookupIdx keys i with
        | none => rw [entryToPair, hl] at h; cases h; rfl
        | some c => rw [entryToPair, hl] at h; cases h

/-! ### Pass 1 -/

theorem pass1_error {α : Type} :
    ∀ (rows : List (α × RubyRow α)) (e : RubyError), pass1 rows = .error e →
      e = RubyError.typeError := by
  intro rows
  induction rows with
  | nil => intro e h; cases h
  | cons p rest ih =>
    intro e h
    rcases p with ⟨k, row⟩
    cases row with
    | nonArr => cases h; rfl
    | arr es =>
      rw [pass1] at h
      cases hrest : pass1 rest with
      | error e2 => rw [hrest] at h; cases h; exact ih _ hrest
      | ok m => rw [hrest] at h; cases h

theorem pass1_ok_val {α : Type} :
    ∀ (rows : List (α × RubyRow α)) (k : Nat), pass1 rows = .ok k →
      k = sumLens rows := by
  intro rows
  induction rows with
  | nil => intro k h; cases h; rfl
  | cons p rest ih =>
    intro k h
    rcases p with ⟨key, row⟩
    cases row with
    | nonArr => cases h
    | arr es =>
      rw [pass1] at h
      cases hrest : pass1 rest with
      | error e' => rw [hrest] at h; cases h
      | ok k' =>
        rw [hrest] at h
        cases h
        have := ih k' hrest
        simp [sumLens, rowLen, this]

theorem pass1_ok_of_arr {α : Type} :
    ∀ (rows : List (α × RubyRow α)), (∀ p ∈ rows, ∃ es, p.2 = RubyRow.arr es) →
      pass1 rows = .ok (sumLens rows) := by
  intro rows
  induction rows with
  | nil => intro _; rfl
  | cons p rest ih =>
    intro hall
    rcases hall p (List.mem_cons_self p rest) with ⟨es, hes⟩
    rcases p with ⟨key, row⟩
    cases hes
    rw [pass1, ih (fun q hq => hall q (List.mem_cons_of_mem _ hq))]
    simp [sumLens, rowLen]

/-! ### Pass 2 -/

theorem fillRows_error {α : Type} [DecidableEq α] (keys : List α) :
    ∀ (rows : List (α × RubyRow α)) (off : Nat) (e : RubyError),
      fillRows keys off rows = .error e → e = RubyError.typeError := by
  intro rows
  induction rows with
  | nil => intro off e h; cases h
  | cons p rest ih =>
    intro off e h
    rcases p with ⟨key, row⟩
    cases row with
    | nonArr => cases h; rfl
    | arr es =>
      rw [fillRows] at h
      cases hm : es.mapM (entryToPair keys) with
      | error e' =>
        rw [hm] at h
        cases h
        rcases mapM_error_mem _ es e hm with ⟨en, _, hen⟩
        exact entryToPair_error hen
      | ok ps =>
        rw [hm] at h
        cases hrest : fillRows keys (off + es.length) rest with
        | error e2 => rw [hrest] at h; cases h; exact ih _ _ hrest
        | ok t => rcases t with ⟨vs, cs, ros⟩; rw [hrest] at h; cases h

theorem fillRows_ok_struct {α : Type} [DecidableEq α] (keys : List α) :
    ∀ (rows : List (α × RubyRow α)) (off : Nat) (vs : List ℚ) (cs ros : List Nat),
      fillRows keys off rows = .ok (vs, cs, ros) →
      ∃ R : List (List (ℚ × Nat)),
        List.Forall₂ (fun p r => ∃ es, p.2 = RubyRow.arr es ∧
          es.mapM (entryToPair keys) = Except.ok r) rows R ∧
        vs = (R.map (fun r => r.map Prod.fst)).flatten ∧
        cs = (R.map (fun r => r.map Prod.snd)).flatten ∧
        ros = offsList off R := by
  intro rows
  induction rows with
  | nil =>
    intro off vs cs ros h
    cases h
    exact ⟨[], .nil, rfl, rfl, rfl⟩
  | cons p rest ih =>
    intro off vs cs ros h
    rcases p with ⟨key, row⟩
    cases row with
    | nonArr => cases h
    | arr es =>
      rw [fillRows] at h
      cases hm : es.mapM (entryToPair keys) with
      | error e => rw [hm] at h; cases h
      | ok ps =>
        rw [hm] at h
        cases hrest : fillRows keys (off + es.length) rest with
        | error e => rw [hrest] at h; cases h
        | ok t =>
          rcases t with ⟨vs', cs', ros'⟩
          rw [hrest] at h
          cases h
          rcases ih (off + es.length) vs' cs' ros' hrest with ⟨R, hfa, hv, hc, hr⟩
          refine ⟨ps :: R, .cons ⟨es, rfl, hm⟩ hfa, ?_, ?_, ?_⟩
          · simp [hv]
          · simp [hc]
          · have hlen : ps.length = es.length := mapM_ok_length hm
            simp [offsList, hr, hlen]

/-! ### Offsets -/

theorem totalLen_nil : totalLen [] = 0 := rfl

theorem totalLen_cons (r : List (ℚ × Nat)) (rest : List (List (ℚ × Nat))) :
    totalLen (r :: rest) = r.length + totalLen rest := by
  simp [totalLen]

theorem offsFull_nil (off : Nat) : offsFull off [] = [off] := by
  simp [offsFull, offsList, totalLen_nil]

theorem offsFull_cons (off : Nat) (r : List (ℚ × Nat)) (rest : List (List (ℚ × Nat))) :
    offsFull off (r :: rest) = off :: offsFull (off + r.length) rest := by
  simp [offsFull, offsList, totalLen_cons, Nat.add_assoc]

theorem offsFull_length (off : Nat) :
    ∀ (R : List (List (ℚ × Nat))), (offsFull off R).length = R.length + 1 := by
  intro R
  simp [offsFull, offsList]
  induction R generalizing off with
  | nil => simp [offsList]
  | cons r rest ih => simp [offsList, ih]

theorem offsFull_head? :
    ∀ (R : List (List (ℚ × Nat))) (off : Nat), (offsFull off R).head? = some off := by
  intro R off
  cases R with
  | nil => rw [offsFull_nil]; rfl
  | cons r rest => rw [offsFull_cons]; rfl

theorem offsFull_chain' :
    ∀ (R : List (List (ℚ × Nat))) (off : Nat), List.Chain' (· ≤ ·) (offsFull off R) := by
  intro R
  induction R with
  | nil => intro off; rw [offsFull_nil]; exact List.chain'_singleton off
  | cons r rest ih =>
    intro off
    rw [offsFull_cons]
    rw [List.chain'_cons']
    refine ⟨?_, ih (off + r.length)⟩
    intro y hy
    rw [offsFull_head? rest (off + r.length)] at hy
    cases hy
    exact Nat.le_add_right off r.length

theorem offsFull_getLast? (off : Nat) (R : List (List (ℚ × Nat))) :
    (offsFull off R).getLast? = some (off + totalLen R) :=
  List.getLast?_concat _

theorem offsFull_get? :
    ∀ (R : List (List (ℚ × Nat))) (off i : Nat), i ≤ R.length →
      (offsFull off R).get? i = some (off + totalLen (R.take i)) := by
  intro R
  induction R with
  | nil =>
    intro off i hi
    have hz : i = 0 := Nat.le_zero.mp hi
    subst hz
    rw [offsFull_nil]
    rfl
  | cons r rest ih =>
    intro off i hi
    rw [offsFull_cons]
    cases i with
    | zero => rfl
    | succ j =>
      have hj : j ≤ rest.length := Nat.le_of_succ_le_succ hi
      rw [List.get?_cons_succ, ih (off + r.length) j hj]
      simp [totalLen_cons, Nat.add_assoc]

/-! ### Structure of every constructed matrix -/

theorem forall₂_mem_right {β γ : Type} {R : β → γ → Prop} {es : List β} {ps : List γ}
    (h : List.Forall₂ R es ps) : ∀ p ∈ ps, ∃ e ∈ es, R e p := by
  induction h with
  | nil => intro p hp; cases hp
  | cons hR _ ih =>
    intro p hp
    rcases List.mem_cons.mp hp with rfl | hmem
    · exact ⟨_, List.mem_cons_self _ _, hR⟩
    · rcases ih p hmem with ⟨e, he, hRe⟩
      exact ⟨e, List.mem_cons_of_mem _ he, hRe⟩

theorem entryToPair_ok {α : Type} [DecidableEq α] {keys : List α}
    {e : RubyEntry α} {w : ℚ} {c : Nat} (h : entryToPair keys e = .ok (w, c)) :
    ∃ eid, e = RubyEntry.hash (some eid) (some w) ∧ lookupIdx keys eid = some c := by
  cases e with
  | nonHash => cases h
  | hash idv wv =>
    cases wv with
    | none => cases h
    | some w' =>
      cases idv with
      | none => cases h
      | some eid =>
        cases hl : lookupIdx keys eid with
        | none => rw [entryToPair, hl] at h; cases h
        | some c' =>
          rw [entryToPair, hl] at h
          cases h
          exact ⟨eid, rfl, hl⟩

theorem forall₂_rows_sumLens {α : Type} (f : RubyEntry α → Except RubyError (ℚ × Nat)) :
    ∀ (rows : List (α × RubyRow α)) (R : List (List (ℚ × Nat))),
      List.Forall₂ (fun p r => ∃ es, p.2 = RubyRow.arr es ∧ es.mapM f = Except.ok r) rows R →
      sumLens rows = totalLen R := by
  intro rows
  induction rows with
  | nil => intro R h; cases h; rfl
  | cons p rest ih =>
    intro R h
    cases h with
    | cons hpr htail =>
      rename_i r R'
      rcases hpr with ⟨es, hes, hm⟩
      have hb : r.length = es.length := mapM_ok_length hm
      have h1 : sumLens (p :: rest) = rowLen p.2 + sumLens rest := by
        simp [sumLens]
      rw [h1, hes, totalLen_cons, ih R' htail, hb]
      simp [rowLen]

theorem mat_to_sparse_error {α : Type} [DecidableEq α]
    {data : List (α × RubyRow α)} {e : RubyError}
    (h : mat_to_sparse data = .error e) : e = RubyError.typeError := by
  rw [mat_to_sparse] at h
  cases hp : pass1 data with
  | error e1 => rw [hp] at h; cases h; exact pass1_error data _ hp
  | ok nnz =>
    rw [hp] at h
    cases hf : fillRows (keysOf data) 0 data with
    | error e2 => rw [hf] at h; cases h; exact fillRows_error _ data 0 _ hf
    | ok t => rcases t with ⟨vs, cs, ros⟩; rw [hf] at h; cases h

theorem initialize_ok_struct {α : Type} [DecidableEq α]
    {data : List (α × RubyRow α)} {nr : Int} {m : csr_matrix}
    (h : csr_matrix_initialize data nr = .ok m) :
    nr = (data.length : Int) ∧
    ∃ R : List (List (ℚ × Nat)),
      RowsRel data R ∧
      m.n = data.length ∧
      m.nnz = totalLen R ∧
      m.values = (R.map (fun r => r.map Prod.fst)).flatten ∧
      m.col_index = (R.map (fun r => r.map Prod.snd)).flatten ∧
      m.row_index = offsFull 0 R := by
  rw [ csr_matrix_initialize] at h
  split at h
  · cases h
  · rename_i hnr
    refine ⟨not_not.mp hnr, ?_⟩
    rw [mat_to_sparse] at h
    cases hp : pass1 data with
    | error e1 => rw [hp] at h; cases h
    | ok nnz =>
      rw [hp] at h
      cases hf : fillRows (keysOf data) 0 data with
      | error e2 => rw [hf] at h; cases h
      | ok t =>
        rcases t with ⟨vs, cs, ros⟩
        rw [hf] at h
        cases h
        rcases fillRows_ok_struct (keysOf data) data 0 vs cs ros hf with ⟨R, hfa, hv, hc, hr⟩
        have hnz : nnz = totalLen R := by
          rw [pass1_ok_val data nnz hp]
          exact forall₂_rows_sumLens _ data R hfa
        refine ⟨R, hfa, rfl, hnz, hv, hc, ?_⟩
        show ros ++ [nnz] = offsFull 0 R
        rw [hr, hnz, offsFull, Nat.zero_add]

theorem flatten_map_length {β : Type} (f : ℚ × Nat → β) :
    ∀ (R : List (List (ℚ × Nat))), ((R.map (fun r => r.map f)).flatten).length = totalLen R := by
  intro R
  induction R with
  | nil => rfl
  | cons r rest ih => simp [totalLen_cons, ih]

theorem keysOf_length {α : Type} (data : List (α × RubyRow α)) :
    (keysOf data).length = data.length := by
  simp [keysOf]

/-- C7: for every successfully constructed matrix, `rowOffsets()` has length
`n + 1`, is non-decreasing, starts at `0` and ends at `nnz`, and `values()`
and `columnIndices()` both have length `nnz`.  The embedding of a
constructed matrix is immutable (every operation is a pure function of it),
so the shape persists across all subsequent operations. -/
theorem csr_shape_invariant {α : Type} [DecidableEq α]
    {data : List (α × RubyRow α)} {nr : Int} {m : csr_matrix}
    (h : csr_matrix_initialize data nr = .ok m) :
    (csr_matrix_row_index m).length = m.n + 1 ∧
    List.Chain' (· ≤ ·) (csr_matrix_row_index m) ∧
    (csr_matrix_row_index m).head? = some 0 ∧
    (csr_matrix_row_index m).getLast? = some m.nnz ∧
    (csr_matrix_values m).length = m.nnz ∧
    (csr_matrix_col_index m).length = m.nnz := by
  rcases initialize_ok_struct h with ⟨-, R, hfa, hn, hnnz, hv, hc, hr⟩
  have hRlen : R.length = data.length := hfa.length_eq.symm
  rw [csr_matrix_row_index, csr_matrix_values, csr_matrix_col_index]
  refine ⟨?_, ?_, ?_, ?_, ?_, ?_⟩
  · rw [hr, offsFull_length, hRlen, hn]
  · rw [hr]; exact offsFull_chain' R 0
  · rw [hr]; exact offsFull_head? R 0
  · rw [hr, offsFull_getLast? 0 R, hnnz, Nat.zero_add]
  · rw [hv, hnnz]; exact flatten_map_length _ R
  · rw [hc, hnnz]; exact flatten_map_length _ R

/-- Witness for the shape invariant at the documented example input. -/
theorem csr_shape_invariant_witness :
    (csr_matrix_row_index ⟨3, 3, [1, 1, 1], [2, 1, 0], [0, 1, 2, 3]⟩).length = 3 + 1 ∧
    List.Chain' (· ≤ ·) (csr_matrix_row_index ⟨3, 3, [1, 1, 1], [2, 1, 0], [0, 1, 2, 3]⟩) ∧
    (csr_matrix_row_index ⟨3, 3, [1, 1, 1], [2, 1, 0], [0, 1, 2, 3]⟩).head? = some 0 ∧
    (csr_matrix_row_index ⟨3, 3, [1, 1, 1], [2, 1, 0], [0, 1, 2, 3]⟩).getLast? = some 3 ∧
    (csr_matrix_values ⟨3, 3, [1, 1, 1], [2, 1, 0], [0, 1, 2, 3]⟩).length = 3 ∧
    (csr_matrix_col_index ⟨3, 3, [1, 1, 1], [2, 1, 0], [0, 1, 2, 3]⟩).length = 3 :=
  @csr_shape_invariant String _ exData 3 ⟨3, 3, [1, 1, 1], [2, 1, 0], [0, 1, 2, 3]⟩ (by decide)

/-- C8: in every successfully constructed matrix every stored column index
is in range: `0 <= col_index[k] < n` for all `k < nnz` (the lower bound is
inherent, indices being naturals: every column comes from the key lookup,
whose values are positions in the key array). -/
theorem col_index_in_range {α : Type} [DecidableEq α]
    {data : List (α × RubyRow α)} {nr : Int} {m : csr_matrix}
    (h : csr_matrix_initialize data nr = .ok m) :
    (∀ c ∈ csr_matrix_col_index m, c < m.n) ∧
    ∀ k < m.nnz, (csr_matrix_col_index m).getD k 0 < m.n := by
  rcases initialize_ok_struct h with ⟨-, R, hfa, hn, hnnz, -, hc, -⟩
  have hmain : ∀ c ∈ csr_matrix_col_index m, c < m.n := by
    rw [csr_matrix_col_index, hc, hn]
    intro c hcmem
    rw [List.mem_flatten] at hcmem
    rcases hcmem with ⟨l, hl, hcl⟩
    rw [List.mem_map] at hl
    rcases hl with ⟨r, hrR, rfl⟩
    rw [List.mem_map] at hcl
    rcases hcl with ⟨pr, hpr, rfl⟩
    rcases forall₂_mem_right hfa r hrR with ⟨p, -, es, -, hm2⟩
    rcases forall₂_mem_right (mapM_ok_forall₂ _ es r hm2) pr hpr with ⟨e, -, hok⟩
    rcases entryToPair_ok (w := pr.1) (c := pr.2) (by rw [hok]) with ⟨eid, -, hl2⟩
    have := lookupIdx_lt hl2
    rwa [keysOf_length] at this
  refine ⟨hmain, ?_⟩
  intro k hk
  have hlen : (csr_matrix_col_index m).length = m.nnz := by
    rw [csr_matrix_col_index, hc, hnnz]; exact flatten_map_length _ R
  have hk' : k < (csr_matrix_col_index m).length := by rw [hlen]; exact hk
  rw [List.getD_eq_getElem _ _ hk']
  exact hmain _ (List.getElem_mem hk')

/-- Witness for the column-range invariant at the documented example. -/
theorem col_index_in_range_witness :
    (∀ c ∈ csr_matrix_col_index ⟨3, 3, [1, 1, 1], [2, 1, 0], [0, 1, 2, 3]⟩, c < 3) ∧
    ∀ k < 3, (csr_matrix_col_index ⟨3, 3, [1, 1, 1], [2, 1, 0], [0, 1, 2, 3]⟩).getD k 0 < 3 :=
  @col_index_in_range String _ exData 3 ⟨3, 3, [1, 1, 1], [2, 1, 0], [0, 1, 2, 3]⟩ (by decide)

/-! ### Error-handling claims -/

theorem pass1_error_of_nonArr {α : Type} :
    ∀ (rows : List (α × RubyRow α)), (∃ p ∈ rows, p.2 = RubyRow.nonArr) →
      pass1 rows = .error RubyError.typeError := by
  intro rows
  induction rows with
  | nil => rintro ⟨p, hp, -⟩; cases hp
  | cons q rest ih =>
    rintro ⟨p, hp, hna⟩
    rcases q with ⟨key, row⟩
    cases row with
    | nonArr => rfl
    | arr es =>
      rcases List.mem_cons.mp hp with rfl | hmem
      · cases hna
      · rw [pass1, ih ⟨p, hmem, hna⟩]

/-- C5, counterexample to "the failure occurs before any buffer is
allocated": a row whose value IS a list, one of whose elements is not a
record, fails only in pass 2 — `Check_Type(entry, T_HASH)` runs after the
three `malloc` calls. -/
theorem nonrecord_after_alloc_counterexample :
    csr_matrix_initialize [("a", RubyRow.arr [RubyEntry.nonHash])] 1 =
      Except.error RubyError.typeError ∧
    allocationReached [("a", RubyRow.arr [RubyEntry.nonHash])] 1 = true := by
  decide

/-- C5 amended: a row-count mismatch raises the dimension ArgumentError and
a non-Array row value raises TypeError, both before the buffers are
allocated; a non-record element inside an Array row also raises TypeError,
but only during pass 2, after the three buffers are allocated.  In all
cases construction returns no matrix, so no partial state is observable. -/
theorem construction_guard_amended {α : Type} [DecidableEq α]
    (data : List (α × RubyRow α)) (nr : Int) :
    (nr ≠ (data.length : Int) →
      csr_matrix_initialize data nr = .error (.argError dimKeysMsg) ∧
      allocationReached data nr = false) ∧
    (nr = (data.length : Int) → (∃ p ∈ data, p.2 = RubyRow.nonArr) →
      csr_matrix_initialize data nr = .error RubyError.typeError ∧
      allocationReached data nr = false) ∧
    (nr = (data.length : Int) →
      (∃ p ∈ data, ∃ es, p.2 = RubyRow.arr es ∧ RubyEntry.nonHash ∈ es) →
      (∀ p ∈ data, p.2 ≠ RubyRow.nonArr) →
      csr_matrix_initialize data nr = .error RubyError.typeError ∧
      allocationReached data nr = true) := by
  refine ⟨?_, ?_, ?_⟩
  · intro hne
    constructor
    · rw [ csr_matrix_initialize, if_pos hne]
    · have hb : (nr == (data.length : Int)) = false := beq_eq_false_iff_ne.mpr hne
      rw [allocationReached, hb, Bool.false_and]
  · intro hnr hex
    have hp := pass1_error_of_nonArr data hex
    constructor
    · rw [ csr_matrix_initialize, if_neg (not_not_intro hnr), mat_to_sparse, hp]
    · rw [allocationReached, hp]
      simp [Except.toOption]
  · intro hnr hbadentry hallarr
    have hallarr' : ∀ p ∈ data, ∃ es, p.2 = RubyRow.arr es := by
      intro p hp
      cases hrow : p.2 with
      | arr es => exact ⟨es, rfl⟩
      | nonArr => exact absurd hrow (hallarr p hp)
    have hp1 : pass1 data = .ok (sumLens data) := pass1_ok_of_arr data hallarr'
    have halloc : allocationReached data nr = true := by
      rw [allocationReached, hp1]
      simp [Except.toOption, hnr]
    cases hres : csr_matrix_initialize data nr with
    | ok m =>
      exfalso
      rcases initialize_ok_struct hres with ⟨-, R, hfa, -⟩
      rcases hbadentry with ⟨p, hp, es, hes, hne⟩
      rcases forall₂_mem_left hfa p hp with ⟨r, -, es2, hes2, hm2⟩
      rw [hes] at hes2
      cases hes2
      rcases mapM_ok_of_mem hm2 hne with ⟨pr, -, hok⟩
      simp [entryToPair] at hok
    | error e =>
      have hres2 := hres
      rw [ csr_matrix_initialize, if_neg (not_not_intro hnr)] at hres2
      rw [mat_to_sparse_error hres2]
      exact ⟨rfl, halloc⟩

/-- Witness instantiating all three construction guards. -/
theorem construction_guard_amended_witness :
    ( csr_matrix_initialize ([("a", RubyRow.arr [RubyEntry.nonHash])] :
        List (String × RubyRow String)) 2 =
      Except.error (.argError dimKeysMsg) ∧
      allocationReached ([("a", RubyRow.arr [RubyEntry.nonHash])] :
        List (String × RubyRow String)) 2 = false) ∧
    ( csr_matrix_initialize ([("a", RubyRow.nonArr)] :
        List (String × RubyRow String)) 1 =
      Except.error RubyError.typeError ∧
      allocationReached ([("a", RubyRow.nonArr)] :
        List (String × RubyRow String)) 1 = false) ∧
    ( csr_matrix_initialize ([("a", RubyRow.arr [RubyEntry.nonHash])] :
        List (String × RubyRow String)) 1 =
      Except.error RubyError.typeError ∧
      allocationReached ([("a", RubyRow.arr [RubyEntry.nonHash])] :
        List (String × RubyRow String)) 1 = true) :=
  ⟨(construction_guard_amended _ 2).1 (by decide),
   (construction_guard_amended _ 1).2.1 (by decide) (by decide),
   (construction_guard_amended [("a", RubyRow.arr [RubyEntry.nonHash])] 1).2.2
     (by decide)
     ⟨("a", RubyRow.arr [RubyEntry.nonHash]), by decide, [RubyEntry.nonHash], rfl, by decide⟩
     (by decide)⟩

/-- C4, counterexample to "fails with a KeyError": an entry id absent from
the declared row identifiers makes construction fail with a TypeError (the
`nil` that `rb_hash_aref(key_lookup, key)` returns fails `NUM2INT`
conversion); `rb_eKeyError` is never raised. -/
theorem unresolved_id_counterexample :
    csr_matrix_initialize [("a", RubyRow.arr [RubyEntry.hash (some "b") (some 1)])] 1 =
      Except.error RubyError.typeError ∧
    RubyError.typeError ≠ RubyError.keyError := by
  decide

/-- C4 amended: for every input with a correct declared row count in which
some entry carries an id absent from the declared row identifiers,
construction fails — with a TypeError, not a KeyError — before any wrong
column index is produced: no matrix is returned at all. -/
theorem unresolved_id_fails_fast {α : Type} [DecidableEq α]
    (data : List (α × RubyRow α)) (nr : Int)
    (hnr : nr = (data.length : Int))
    (hbad : ∃ p ∈ data, ∃ es, p.2 = RubyRow.arr es ∧ ∃ e ∈ es,
      unresolvedIn (keysOf data) e = true) :
    csr_matrix_initialize data nr = Except.error RubyError.typeError := by
  cases hres : csr_matrix_initialize data nr with
  | ok m =>
    exfalso
    rcases initialize_ok_struct hres with ⟨-, R, hfa, -⟩
    rcases hbad with ⟨p, hp, es, hes, e, he, hu⟩
    rcases forall₂_mem_left hfa p hp with ⟨r, -, es2, hes2, hm2⟩
    rw [hes] at hes2
    cases hes2
    rcases mapM_ok_of_mem hm2 he with ⟨pr, -, hok⟩
    cases e with
    | nonHash => simp [unresolvedIn] at hu
    | hash idv wv =>
      cases idv with
      | none => simp [unresolvedIn] at hu
      | some eid =>
        have hmem : eid ∉ keysOf data := by
          by_cases hin : eid ∈ keysOf data
          · rw [unresolvedIn, if_pos hin] at hu; cases hu
          · exact hin
        cases wv with
        | none => simp [entryToPair] at hok
        | some w =>
          cases hl : lookupIdx (keysOf data) eid with
          | none => rw [entryToPair, hl] at hok; cases hok
          | some c => exact hmem (lookupIdx_mem hl)
  | error e =>
    have hres2 := hres
    rw [ csr_matrix_initialize, if_neg (not_not_intro hnr)] at hres2
    rw [mat_to_sparse_error hres2]

/-- Witness: the unresolved-id input fails with TypeError. -/
theorem unresolved_id_fails_fast_witness :
    csr_matrix_initialize [("a", RubyRow.arr [RubyEntry.hash (some "b") (some 1)])] 1 =
      Except.error RubyError.typeError :=
  unresolved_id_fails_fast _ 1 (by decide)
    ⟨("a", RubyRow.arr [RubyEntry.hash (some "b") (some 1)]), by decide,
     [RubyEntry.hash (some "b") (some 1)], rfl,
     RubyEntry.hash (some "b") (some 1), by decide, by decide⟩

/-- C6: on every constructed matrix, `mulvec` with a vector of the wrong
length raises the dimension ArgumentError, and `dot_row` with a conformant
vector but an out-of-range row raises the index ArgumentError; the two
errors are distinct (their messages differ; both are `rb_eArgError`). -/
theorem dimension_and_index_guards {α : Type} [DecidableEq α]
    {data : List (α × RubyRow α)} {nr : Int} {m : csr_matrix}
    (h : csr_matrix_initialize data nr = .ok m) :
    (∀ vec : List ℚ, vec.length ≠ m.n →
      csr_matrix_mulvec m vec = .error (.argError dimVecMsg)) ∧
    (∀ (vec : List ℚ) (row : Int), vec.length = m.n →
      (row < 0 ∨ (m.n : Int) ≤ row) →
      csr_matrix_dot_row m vec row = .error (.argError idxRowMsg)) ∧
    RubyError.argError idxRowMsg ≠ RubyError.argError dimVecMsg := by
  refine ⟨?_, ?_, by decide⟩
  · intro vec hne
    rw [csr_matrix_mulvec, if_pos hne]
  · intro vec row hlen hbad
    have hng : ¬(0 ≤ row ∧ row < (m.n : Int)) := by
      rintro ⟨h0, hlt⟩
      rcases hbad with hb | hb <;> omega
    rw [csr_matrix_dot_row, if_neg (not_not_intro hlen), if_pos hng]

/-- Witness instantiating both guards at the documented example. -/
theorem dimension_and_index_guards_witness :
    csr_matrix_mulvec ⟨3, 3, [1, 1, 1], [2, 1, 0], [0, 1, 2, 3]⟩ [1, 2] =
      .error (.argError dimVecMsg) ∧
    csr_matrix_dot_row ⟨3, 3, [1, 1, 1], [2, 1, 0], [0, 1, 2, 3]⟩ [1, 2, 3] 3 =
      .error (.argError idxRowMsg) :=
  ⟨(@dimension_and_index_guards String _ exData 3 ⟨3, 3, [1, 1, 1], [2, 1, 0], [0, 1, 2, 3]⟩ (by decide)).1 [1, 2] (by decide),
   (@dimension_and_index_guards String _ exData 3 ⟨3, 3, [1, 1, 1], [2, 1, 0], [0, 1, 2, 3]⟩ (by decide)).2.1 [1, 2, 3] 3
     (by decide) (by decide)⟩

theorem map_range_getD (f : Nat → ℚ) (n k : Nat) (hk : k < n) :
    ((List.range n).map f).getD k 0 = f k := by
  have hk' : k < ((List.range n).map f).length := by simp [hk]
  rw [List.getD_eq_getElem _ _ hk']
  simp

/-- C2: on every constructed matrix, for every conformant vector and every
valid row index, `dot_row` returns exactly the corresponding entry of the
`mulvec` result (identical accumulation over the single row slice). -/
theorem dot_row_eq_mulvec_entry {α : Type} [DecidableEq α]
    {data : List (α × RubyRow α)} {nr : Int} {m : csr_matrix}
    (h : csr_matrix_initialize data nr = .ok m)
    (vec : List ℚ) (row : Int) (hlen : vec.length = m.n)
    (h0 : 0 ≤ row) (hrow : row < (m.n : Int)) :
    ∃ ws, csr_matrix_mulvec m vec = Except.ok ws ∧
      csr_matrix_dot_row m vec row = Except.ok (ws.getD row.toNat 0) := by
  refine ⟨(List.range m.n).map (fun i =>
    (List.range' (m.row_index.getD i 0)
        (m.row_index.getD (i + 1) 0 - m.row_index.getD i 0)).foldl
      (fun tmp jj => tmp + m.values.getD jj 0 * vec.getD (m.col_index.getD jj 0) 0) 0),
    ?_, ?_⟩
  · rw [csr_matrix_mulvec, if_neg (not_not_intro hlen)]
  · have hk : row.toNat < m.n := by omega
    rw [csr_matrix_dot_row, if_neg (not_not_intro hlen),
      if_neg (not_not_intro ⟨h0, hrow⟩), map_range_getD _ _ _ hk]

/-- Witness: row 1 of the documented example. -/
theorem dot_row_eq_mulvec_entry_witness :
    ∃ ws, csr_matrix_mulvec ⟨3, 3, [1, 1, 1], [2, 1, 0], [0, 1, 2, 3]⟩ [1, 2, 3] =
        Except.ok ws ∧
      csr_matrix_dot_row ⟨3, 3, [1, 1, 1], [2, 1, 0], [0, 1, 2, 3]⟩ [1, 2, 3] 1 =
        Except.ok (ws.getD 1 0) :=
  @dot_row_eq_mulvec_entry String _ exData 3 ⟨3, 3, [1, 1, 1], [2, 1, 0], [0, 1, 2, 3]⟩ (by decide) [1, 2, 3] 1
    (by decide) (by decide) (by decide)

/-- C3: the documented example input constructs, its three buffers are
exactly as the spec states, and `mulvec [1, 2, 3]` returns `[3, 2, 1]`. -/
theorem example_matrix_spec :
    ∃ m, csr_matrix_initialize exData 3 = Except.ok m ∧
      csr_matrix_row_index m = [0, 1, 2, 3] ∧
      csr_matrix_col_index m = [2, 1, 0] ∧
      csr_matrix_values m = [1, 1, 1] ∧
      csr_matrix_mulvec m [1, 2, 3] = Except.ok [3, 2, 1] := by
  refine ⟨⟨3, 3, [1, 1, 1], [2, 1, 0], [0, 1, 2, 3]⟩, by decide, by decide, by decide,
    by decide, ?_⟩
  norm_num [csr_matrix_mulvec, List.range_succ, List.range']

/-! ### Weights do not influence structure -/

theorem keysOf_reweight {α : Type} (f : ℚ → ℚ) (data : List (α × RubyRow α)) :
    keysOf (reweight f data) = keysOf data := by
  simp [keysOf, reweight]

theorem entryToPair_reweight {α : Type} [DecidableEq α] (keys : List α)
    (f : ℚ → ℚ) (e : RubyEntry α) :
    entryToPair keys (reweightEntry f e) =
      match entryToPair keys e with
      | .error err => .error err
      | .ok (w, c) => .ok (f w, c) := by
  cases e with
  | nonHash => rfl
  | hash idv wv =>
    cases wv with
    | none => rfl
    | some w =>
      cases idv with
      | none => rfl
      | some i =>
        cases hl : lookupIdx keys i <;>
          simp [entryToPair, reweightEntry, hl]

theorem mapM_entryToPair_reweight {α : Type} [DecidableEq α] (keys : List α) (f : ℚ → ℚ) :
    ∀ es : List (RubyEntry α),
      (es.map (reweightEntry f)).mapM (entryToPair keys) =
        match es.mapM (entryToPair keys) with
        | .error err => .error err
        | .ok ps => .ok (ps.map (fun p => (f p.1, p.2))) := by
  intro es
  induction es with
  | nil => rfl
  | cons e rest ih =>
    rw [List.map_cons, List.mapM_cons, List.mapM_cons, entryToPair_reweight keys f e, ih]
    cases he : entryToPair keys e with
    | error err => simp [Bind.bind, Except.bind]
    | ok p =>
      rcases p with ⟨w, c⟩
      cases hrest : rest.mapM (entryToPair keys) with
      | error err => simp [Bind.bind, Except.bind]
      | ok ps => simp [Bind.bind, Except.bind, pure, Except.pure]

theorem pass1_reweight {α : Type} (f : ℚ → ℚ) :
    ∀ data : List (α × RubyRow α), pass1 (reweight f data) = pass1 data := by
  intro data
  induction data with
  | nil => rfl
  | cons p rest ih =>
    rcases p with ⟨k, row⟩
    cases row with
    | nonArr => rfl
    | arr es =>
      show pass1 ((k, RubyRow.arr (es.map (reweightEntry f))) :: reweight f rest) = _
      rw [pass1, pass1, ih, List.length_map]

theorem fillRows_reweight {α : Type} [DecidableEq α] (keys : List α) (f : ℚ → ℚ) :
    ∀ (data : List (α × RubyRow α)) (off : Nat),
      fillRows keys off (reweight f data) =
        match fillRows keys off data with
        | .error e => .error e
        | .ok (vs, cs, ros) => .ok (vs.map f, cs, ros) := by
  intro data
  induction data with
  | nil => intro off; rfl
  | cons p rest ih =>
    intro off
    rcases p with ⟨k, row⟩
    cases row with
    | nonArr => rfl
    | arr es =>
      show fillRows keys off ((k, RubyRow.arr (es.map (reweightEntry f))) :: reweight f rest) = _
      rw [fillRows, fillRows, mapM_entryToPair_reweight keys f es]
      cases hm : es.mapM (entryToPair keys) with
      | error e => rfl
      | ok ps =>
        rw [List.length_map, ih (off + es.length)]
        cases hrest : fillRows keys (off + es.length) rest with
        | error e => rfl
        | ok t =>
          rcases t with ⟨vs, cs, ros⟩
          simp [List.map_map, Function.comp]

/-- C10: `nnz` equals the sum of the lengths of all row entry lists,
independent of the weight values: replacing every weight through any
function (for example sending all weights, zero weights included, to other
values) preserves construction success, `n`, `nnz`, `col_index` and
`row_index`, and maps `values` pointwise; in particular a `0.0` weight is
stored in `values`, counted in `nnz`, and visited by the `mulvec`/`dot_row`
loops, whose bounds depend only on `row_index`. -/
theorem nnz_counts_all_entries {α : Type} [DecidableEq α]
    {data : List (α × RubyRow α)} {nr : Int} {m : csr_matrix}
    (h : csr_matrix_initialize data nr = .ok m) :
    m.nnz = sumLens data ∧
    (csr_matrix_values m).length = m.nnz ∧
    ∀ f : ℚ → ℚ, ∃ m2, csr_matrix_initialize (reweight f data) nr = Except.ok m2 ∧
      m2.n = m.n ∧ m2.nnz = m.nnz ∧ m2.col_index = m.col_index ∧
      m2.row_index = m.row_index ∧ m2.values = m.values.map f := by
  rw [ csr_matrix_initialize] at h
  split at h
  · cases h
  · rename_i hnr
    rw [mat_to_sparse] at h
    cases hp : pass1 data with
    | error e1 => rw [hp] at h; cases h
    | ok nnz =>
      rw [hp] at h
      cases hf : fillRows (keysOf data) 0 data with
      | error e2 => rw [hf] at h; cases h
      | ok t =>
        rcases t with ⟨vs, cs, ros⟩
        rw [hf] at h
        cases h
        rcases fillRows_ok_struct (keysOf data) data 0 vs cs ros hf with ⟨R, hfa, hv, -, -⟩
        refine ⟨pass1_ok_val data nnz hp, ?_, ?_⟩
        · show vs.length = nnz
          rw [hv, pass1_ok_val data nnz hp, forall₂_rows_sumLens _ data R hfa]
          exact flatten_map_length _ R
        · intro f
          have hlenN : (reweight f data).length = data.length := by
            simp [reweight]
          refine ⟨⟨data.length, nnz, vs.map f, cs, ros ++ [nnz]⟩, ?_, rfl, rfl, rfl, rfl, rfl⟩
          rw [ csr_matrix_initialize]
          simp only [hlenN]
          rw [if_neg hnr, mat_to_sparse, pass1_reweight f data, hp,
            keysOf_reweight f data, fillRows_reweight (keysOf data) f data 0, hf]
          simp only [hlenN]

/-- Witness for the weight-independence of structure, at the documented
example with all weights sent to zero. -/
theorem nnz_counts_all_entries_witness :
    csr_matrix.nnz ⟨3, 3, [1, 1, 1], [2, 1, 0], [0, 1, 2, 3]⟩ = sumLens exData ∧
    ∃ m2, csr_matrix_initialize (reweight (fun _ => 0) exData) 3 = Except.ok m2 ∧
      m2.n = 3 ∧ m2.nnz = 3 ∧ m2.col_index = [2, 1, 0] ∧
      m2.row_index = [0, 1, 2, 3] ∧ m2.values = List.map (fun _ => 0) [1, 1, 1] :=
  ⟨(@nnz_counts_all_entries String _ exData 3 ⟨3, 3, [1, 1, 1], [2, 1, 0], [0, 1, 2, 3]⟩ (by decide)).1,
   (@nnz_counts_all_entries String _ exData 3 ⟨3, 3, [1, 1, 1], [2, 1, 0], [0, 1, 2, 3]⟩ (by decide)).2.2 (fun _ => 0)⟩

/-! ### Bounds of the coordinates walk -/

theorem coordLoop_isSome (m : csr_matrix)
    (hcl : m.col_index.length = m.nnz) (hvl : m.values.length = m.nnz)
    (hrl : m.row_index.length = m.n + 1)
    (hlast : m.row_index.get? m.n = some m.nnz) :
    ∀ (cnt k i row_end : Nat) (acc : List ((Nat × Nat) × ℚ)),
      k + cnt = m.nnz → i + 1 ≤ m.n →
      m.row_index.get? (i + 1) = some row_end →
      (coordLoop m (List.range' k cnt) i row_end acc).isSome = true := by
  intro cnt
  induction cnt with
  | zero => intro k i row_end acc hk hi hre; rfl
  | succ c ih =>
    intro k i row_end acc hk hi hre
    rw [List.range'_succ, coordLoop]
    have hklt : k < m.nnz := by omega
    have hkc : k < m.col_index.length := by rw [hcl]; exact hklt
    have hkv : k < m.values.length := by rw [hvl]; exact hklt
    by_cases hkr : k = row_end
    · rw [if_pos hkr]
      have hne : i + 1 ≠ m.n := by
        intro heq
        rw [heq, hlast] at hre
        injection hre with hre2
        omega
      have hi1 : i + 1 < m.n := lt_of_le_of_ne hi hne
      have hi2 : i + 2 < m.row_index.length := by rw [hrl]; omega
      rw [List.get?_eq_get hi2, List.get?_eq_get hkc, List.get?_eq_get hkv]
      exact ih (k + 1) (i + 1) _ _ (by omega) (by omega) (List.get?_eq_get hi2)
    · rw [if_neg hkr]
      rw [List.get?_eq_get hkc, List.get?_eq_get hkv]
      exact ih (k + 1) i row_end _ (by omega) hi hre

/-- C9: `csr_matrix_coordinates` reads `row_index[1]` unconditionally before
entering its loop.  On every constructed matrix with `n >= 1` every array
access of the walk is in bounds (the total embedding returns `some`); the
matrix constructed from the empty mapping with `num_rows = 0` has the
one-element row offset buffer `[0]`, and the pre-loop read falls past its
end: the error branch of the embedding is reached (`none`). -/
theorem coordinates_reads_in_bounds {α : Type} [DecidableEq α]
    {data : List (α × RubyRow α)} {nr : Int} {m : csr_matrix}
    (h : csr_matrix_initialize data nr = .ok m) (hn : 1 ≤ m.n) :
    (csr_matrix_coordinates m).isSome = true ∧
    csr_matrix_initialize ([] : List (α × RubyRow α)) 0 = Except.ok ⟨0, 0, [], [], [0]⟩ ∧
    csr_matrix_coordinates ⟨0, 0, [], [], [0]⟩ = none := by
  refine ⟨?_, rfl, rfl⟩
  rcases initialize_ok_struct h with ⟨-, R, hfa, hnd, hnnz, hv, hc, hr⟩
  have hRlen : R.length = data.length := hfa.length_eq.symm
  have hcl : m.col_index.length = m.nnz := by
    rw [hc, hnnz]; exact flatten_map_length _ R
  have hvl : m.values.length = m.nnz := by
    rw [hv, hnnz]; exact flatten_map_length _ R
  have hrl : m.row_index.length = m.n + 1 := by
    rw [hr, offsFull_length, hRlen, hnd]
  have hlast : m.row_index.get? m.n = some m.nnz := by
    rw [hr, hnd, ← hRlen, offsFull_get? R 0 R.length (le_refl _), List.take_length,
      Nat.zero_add, hnnz]
  have h1 : 1 < m.row_index.length := by rw [hrl]; omega
  rw [csr_matrix_coordinates, List.get?_eq_get h1]
  rw [List.range_eq_range']
  exact coordLoop_isSome m hcl hvl hrl hlast m.nnz 0 0 _ []
    (Nat.zero_add _) hn (List.get?_eq_get h1)

/-- Witness: the documented example is fully in bounds, the empty input is
not. -/
theorem coordinates_reads_in_bounds_witness :
    (csr_matrix_coordinates ⟨3, 3, [1, 1, 1], [2, 1, 0], [0, 1, 2, 3]⟩).isSome = true ∧
    csr_matrix_initialize ([] : List (String × RubyRow String)) 0 =
      Except.ok ⟨0, 0, [], [], [0]⟩ ∧
    csr_matrix_coordinates ⟨0, 0, [], [], [0]⟩ = none :=
  @coordinates_reads_in_bounds String _ exData 3 ⟨3, 3, [1, 1, 1], [2, 1, 0], [0, 1, 2, 3]⟩ (by decide) (by decide)

/-! ### The coordinates round trip -/

theorem updateAssoc_append {κ ν : Type} [DecidableEq κ] :
    ∀ (l : List (κ × ν)) (k : κ) (v : ν), k ∉ l.map Prod.fst →
      updateAssoc l k v = l ++ [(k, v)] := by
  intro l
  induction l with
  | nil => intro k v _; rfl
  | cons p rest ih =>
    intro k v hk
    rw [List.map_cons, List.mem_cons] at hk
    push_neg at hk
    rw [updateAssoc, if_neg (fun hc => hk.1 hc.symm), ih k v hk.2]
    rfl

theorem foldl_updateAssoc_eq_append {κ ν : Type} [DecidableEq κ] :
    ∀ (L acc : List (κ × ν)), ((acc ++ L).map Prod.fst).Nodup →
      L.foldl (fun a pr => updateAssoc a pr.1 pr.2) acc = acc ++ L := by
  intro L
  induction L with
  | nil => intro acc _; rw [List.foldl_nil, List.append_nil]
  | cons pr L2 ih =>
    intro acc hnd
    have hni : pr.1 ∉ acc.map Prod.fst := by
      rw [List.map_append] at hnd
      rcases List.nodup_append.mp hnd with ⟨-, -, hdisj⟩
      intro hmem
      exact hdisj hmem (by simp)
    rw [List.foldl_cons, updateAssoc_append acc pr.1 pr.2 hni]
    have hacc : (acc ++ [pr]) ++ L2 = acc ++ pr :: L2 := by
      rw [List.append_assoc]; rfl
    have hnd2 : (((acc ++ [pr]) ++ L2).map Prod.fst).Nodup := by rw [hacc]; exact hnd
    have := ih (acc ++ [pr]) hnd2
    rw [hacc] at this
    exact this

theorem totalLen_append (R1 R2 : List (List (ℚ × Nat))) :
    totalLen (R1 ++ R2) = totalLen R1 + totalLen R2 := by
  simp [totalLen]

theorem read_block_get? {β : Type} (f : ℚ × Nat → β) (Rpre Rrest : List (List (ℚ × Nat)))
    (psdone psrest : List (ℚ × Nat)) (p : ℚ × Nat) :
    (((Rpre ++ (psdone ++ p :: psrest) :: Rrest).map (fun r => r.map f)).flatten).get?
        (totalLen Rpre + psdone.length) = some (f p) := by
  rw [List.map_append, List.flatten_append]
  have hlen : ((Rpre.map (fun r => r.map f)).flatten).length = totalLen Rpre :=
    flatten_map_length f Rpre
  rw [List.get?_append_right (by rw [hlen]; omega), hlen, Nat.add_sub_cancel_left]
  rw [List.map_cons, List.flatten_cons, List.map_append]
  rw [List.get?_append (by simp)]
  rw [List.get?_append_right (by simp), List.length_map, Nat.sub_self]
  rfl

theorem filterMap_eq_of_mapM {α : Type} [DecidableEq α] (keys : List α) (i0 : Nat)
    {es : List (RubyEntry α)} {r : List (ℚ × Nat)}
    (hfa : List.Forall₂ (fun e pr => entryToPair keys e = .ok pr) es r) :
    es.filterMap (fun e =>
      match e with
      | RubyEntry.hash (some eid) (some w) =>
        (lookupIdx keys eid).map (fun c => ((i0, c), w))
      | _ => none) = r.map (fun pr => ((i0, pr.2), pr.1)) := by
  induction hfa with
  | nil => rfl
  | cons hok htail ih =>
    rename_i e pr es2 r2
    rcases pr with ⟨w, c⟩
    rcases entryToPair_ok hok with ⟨eid, rfl, hl⟩
    rw [List.filterMap_cons, List.map_cons]
    simp only [hl, Option.map_some']
    rw [ih]

theorem specCoordsFrom_eq_emitRows {α : Type} [DecidableEq α] (keys : List α) :
    ∀ (rows : List (α × RubyRow α)) (R : List (List (ℚ × Nat))) (i0 : Nat),
      List.Forall₂ (fun p r => ∃ es, p.2 = RubyRow.arr es ∧
        es.mapM (entryToPair keys) = Except.ok r) rows R →
      specCoordsFrom keys i0 rows = emitRows i0 R := by
  intro rows
  induction rows with
  | nil => intro R i0 hfa; cases hfa; rfl
  | cons p rest ih =>
    intro R i0 hfa
    cases hfa with
    | cons hpr htail =>
      rename_i r R2
      rcases p with ⟨pk, prow⟩
      rcases hpr with ⟨es, hes, hm⟩
      cases hes
      rw [specCoordsFrom, emitRows, ih R2 (i0 + 1) htail]
      congr 1
      exact filterMap_eq_of_mapM keys i0 (mapM_ok_forall₂ _ es r hm)

theorem coordLoop_inner (m : csr_matrix) (Rpre Rrest : List (List (ℚ × Nat)))
    (ps : List (ℚ × Nat))
    (hv : m.values = ((Rpre ++ ps :: Rrest).map (fun r => r.map Prod.fst)).flatten)
    (hc : m.col_index = ((Rpre ++ ps :: Rrest).map (fun r => r.map Prod.snd)).flatten) :
    ∀ (psleft psdone : List (ℚ × Nat)) (M : Nat) (acc : List ((Nat × Nat) × ℚ)),
      ps = psdone ++ psleft →
      coordLoop m (List.range' (totalLen Rpre + psdone.length) (psleft.length + M))
          Rpre.length (totalLen Rpre + ps.length) acc =
        coordLoop m (List.range' (totalLen Rpre + ps.length) M)
          Rpre.length (totalLen Rpre + ps.length)
          (psleft.foldl (fun a pr => updateAssoc a (Rpre.length, pr.2) pr.1) acc) := by
  intro psleft
  induction psleft with
  | nil =>
    intro psdone M acc hsplit
    rw [List.append_nil] at hsplit
    subst hsplit
    simp only [List.length_nil, Nat.zero_add, List.foldl_nil]
  | cons p psrest ih =>
    intro psdone M acc hsplit
    have hlt : psdone.length < ps.length := by
      rw [hsplit, List.length_append, List.length_cons]; omega
    have hcread : m.col_index.get? (totalLen Rpre + psdone.length) = some p.2 := by
      rw [hc, hsplit]; exact read_block_get? Prod.snd Rpre Rrest psdone psrest p
    have hvread : m.values.get? (totalLen Rpre + psdone.length) = some p.1 := by
      rw [hv, hsplit]; exact read_block_get? Prod.fst Rpre Rrest psdone psrest p
    have hne : totalLen Rpre + psdone.length ≠ totalLen Rpre + ps.length := by omega
    rw [(by rw [List.length_cons]; omega :
        (p :: psrest).length + M = (psrest.length + M) + 1),
      List.range'_succ, coordLoop, if_neg hne, hcread, hvread]
    show coordLoop m (List.range' (totalLen Rpre + psdone.length + 1) (psrest.length + M))
        Rpre.length (totalLen Rpre + ps.length)
        (updateAssoc acc (Rpre.length, p.2) p.1) = _
    have hsplit2 : ps = (psdone ++ [p]) ++ psrest := by
      rw [hsplit, List.append_assoc]; rfl
    have ih2 := ih (psdone ++ [p]) M (updateAssoc acc (Rpre.length, p.2) p.1) hsplit2
    simp only [List.length_append, List.length_cons, List.length_nil, Nat.zero_add] at ih2
    rw [List.foldl_cons]
    rw [(by omega : totalLen Rpre + psdone.length + 1 = totalLen Rpre + (psdone.length + 1))]
    exact ih2

theorem totalLen_snoc (R : List (List (ℚ × Nat))) (r : List (ℚ × Nat)) :
    totalLen (R ++ [r]) = totalLen R + r.length := by
  simp [totalLen]

theorem coordLoop_outer (m : csr_matrix) :
    ∀ (Rpost Rpre : List (List (ℚ × Nat))) (acc : List ((Nat × Nat) × ℚ)),
      m.values = ((Rpre ++ Rpost).map (fun r => r.map Prod.fst)).flatten →
      m.col_index = ((Rpre ++ Rpost).map (fun r => r.map Prod.snd)).flatten →
      m.row_index = offsFull 0 (Rpre ++ Rpost) →
      (∀ r ∈ Rpost, r ≠ []) →
      1 ≤ Rpre.length →
      coordLoop m (List.range' (totalLen Rpre) (totalLen Rpost))
          (Rpre.length - 1) (totalLen Rpre) acc =
        some ((emitRows Rpre.length Rpost).foldl
          (fun a pr => updateAssoc a pr.1 pr.2) acc) := by
  intro Rpost
  induction Rpost with
  | nil =>
    intro Rpre acc hv hc hr hne hpre
    rfl
  | cons ps Rrest ih =>
    intro Rpre acc hv hc hr hne hpre
    cases ps with
    | nil => exact absurd rfl (hne [] (List.mem_cons_self _ _))
    | cons p0 ps' =>
      have hcnt : totalLen ((p0 :: ps') :: Rrest) = (ps'.length + totalLen Rrest) + 1 := by
        rw [totalLen_cons, List.length_cons]; omega
      rw [hcnt, List.range'_succ, coordLoop, if_pos rfl]
      have hidx : Rpre.length - 1 + 2 = Rpre.length + 1 := by omega
      rw [hidx]
      have hread_r : m.row_index.get? (Rpre.length + 1) =
          some (totalLen Rpre + (p0 :: ps').length) := by
        rw [hr, offsFull_get? _ 0 (Rpre.length + 1)
          (by rw [List.length_append, List.length_cons]; omega)]
        rw [Nat.zero_add, List.take_append 1, totalLen_append]
        simp [totalLen]
      have hcread : m.col_index.get? (totalLen Rpre) = some p0.2 := by
        have hrb := read_block_get? Prod.snd Rpre Rrest [] ps' p0
        rw [List.length_nil, Nat.add_zero] at hrb
        rw [hc]
        exact hrb
      have hvread : m.values.get? (totalLen Rpre) = some p0.1 := by
        have hrb := read_block_get? Prod.fst Rpre Rrest [] ps' p0
        rw [List.length_nil, Nat.add_zero] at hrb
        rw [hv]
        exact hrb
      rw [hread_r, hcread, hvread]
      show coordLoop m
          (List.range' (totalLen Rpre + 1) (ps'.length + totalLen Rrest))
          (Rpre.length - 1 + 1) (totalLen Rpre + (p0 :: ps').length)
          (updateAssoc acc (Rpre.length - 1 + 1, p0.2) p0.1) = _
      have hi1 : Rpre.length - 1 + 1 = Rpre.length := by omega
      rw [hi1]
      have hinner := coordLoop_inner m Rpre Rrest (p0 :: ps') hv hc ps' [p0]
        (totalLen Rrest) (updateAssoc acc (Rpre.length, p0.2) p0.1) rfl
      simp only [List.length_cons, List.length_nil, Nat.zero_add] at hinner
      simp only [List.length_cons]
      rw [hinner]
      have hx : Rpre ++ (p0 :: ps') :: Rrest = (Rpre ++ [p0 :: ps']) ++ Rrest := by
        rw [List.append_assoc]; rfl
      have ih2 := ih (Rpre ++ [p0 :: ps'])
        (ps'.foldl (fun a pr => updateAssoc a (Rpre.length, pr.2) pr.1)
          (updateAssoc acc (Rpre.length, p0.2) p0.1))
        (by rw [← hx]; exact hv) (by rw [← hx]; exact hc) (by rw [← hx]; exact hr)
        (fun r hr2 => hne r (List.mem_cons_of_mem _ hr2))
        (by rw [List.length_append]; omega)
      rw [totalLen_snoc, List.length_append] at ih2
      simp only [List.length_cons, List.length_nil, Nat.zero_add, Nat.add_sub_cancel] at ih2
      rw [emitRows, List.foldl_append, List.foldl_map, List.foldl_cons]
      exact ih2

/-- C1, counterexample to the round trip "including inputs where some rows
have empty entry lists": with an empty middle row the walk of
`csr_matrix_coordinates` advances its row counter at most once per
boundary hit, so the entry of row 2 is emitted under row index 1 and the
key (2,2) required by the spec never appears. -/
theorem coordinates_empty_row_counterexample :
    ∃ m, csr_matrix_initialize emptyRowData 3 = Except.ok m ∧
      specCoords emptyRowData = [((0, 0), 1), ((2, 2), 2)] ∧
      csr_matrix_coordinates m = some [((0, 0), 1), ((1, 2), 2)] ∧
      csr_matrix_coordinates m ≠ some (specCoords emptyRowData) :=
  ⟨⟨3, 2, [1, 2], [0, 2], [0, 1, 1, 2]⟩, by decide, by decide, by decide, by decide⟩

/-- C1 amended: for every DOK input with no duplicate (row, col) pairs that
constructs successfully, has AT LEAST ONE ROW and NO EMPTY ROW ENTRY LIST,
`coordinates()` returns exactly one entry per input triple: the key
(index of r, index of c) maps to w under the key-ordering index assignment,
and no other keys are present (the result equals the spec-side mapping
exactly, in row-major order). -/
theorem coordinates_roundtrip_nonempty_rows {α : Type} [DecidableEq α]
    {data : List (α × RubyRow α)} {nr : Int} {m : csr_matrix}
    (h : csr_matrix_initialize data nr = .ok m)
    (hne : data ≠ [])
    (hnemp : ∀ p ∈ data, p.2 ≠ RubyRow.arr [])
    (hnodup : ((specCoords data).map Prod.fst).Nodup) :
    csr_matrix_coordinates m = some (specCoords data) := by
  rcases initialize_ok_struct h with ⟨-, R, hfa, hn, hnnz, hv, hc, hr⟩
  have hspec : specCoords data = emitRows 0 R :=
    specCoordsFrom_eq_emitRows (keysOf data) data R 0 hfa
  have hRne : ∀ r ∈ R, r ≠ [] := by
    intro r hrR hreq
    rcases forall₂_mem_right hfa r hrR with ⟨p, hp, es, hes, hm2⟩
    subst hreq
    have hlen : es.length = 0 := by
      have := mapM_ok_length hm2
      simpa using this.symm
    rw [List.length_eq_zero] at hlen
    subst hlen
    exact hnemp p hp hes
  obtain ⟨R0, Rrest, rfl⟩ : ∃ R0 Rrest, R = R0 :: Rrest := by
    cases R with
    | nil =>
      exfalso
      have hlz : data.length = 0 := by rw [hfa.length_eq]; rfl
      exact hne (List.length_eq_zero.mp hlz)
    | cons a b => exact ⟨a, b, rfl⟩
  rw [csr_matrix_coordinates]
  have h1 : m.row_index.get? 1 = some R0.length := by
    rw [hr, offsFull_get? _ 0 1 (by simp), Nat.zero_add]
    simp [totalLen]
  rw [h1, List.range_eq_range', hnnz, totalLen_cons]
  show coordLoop m (List.range' 0 (R0.length + totalLen Rrest)) 0 R0.length [] =
    some (specCoords data)
  have hinner := coordLoop_inner m [] Rrest R0 hv hc R0 [] (totalLen Rrest) [] rfl
  simp only [totalLen_nil, List.length_nil, Nat.zero_add] at hinner
  rw [hinner]
  have houter := coordLoop_outer m Rrest [R0]
    (R0.foldl (fun a pr => updateAssoc a (0, pr.2) pr.1) []) hv hc hr
    (fun r hr2 => hRne r (List.mem_cons_of_mem _ hr2)) (by simp)
  simp only [totalLen_cons, totalLen_nil, Nat.add_zero, List.length_cons,
    List.length_nil, Nat.zero_add, Nat.sub_self] at houter
  rw [houter]
  have hfold : (emitRows 1 Rrest).foldl (fun a pr => updateAssoc a pr.1 pr.2)
      (R0.foldl (fun a pr => updateAssoc a (0, pr.2) pr.1) []) =
      (emitRows 0 (R0 :: Rrest)).foldl (fun a pr => updateAssoc a pr.1 pr.2) [] := by
    rw [emitRows, List.foldl_append, List.foldl_map]
  rw [hfold, hspec,
    foldl_updateAssoc_eq_append (emitRows 0 (R0 :: Rrest)) []
      (by rw [List.nil_append, ← hspec]; exact hnodup),
    List.nil_append]

/-- Witness: the documented example (three nonempty rows, distinct keys)
round-trips exactly. -/
theorem coordinates_roundtrip_nonempty_rows_witness :
    csr_matrix_coordinates ⟨3, 3, [1, 1, 1], [2, 1, 0], [0, 1, 2, 3]⟩ =
      some (specCoords exData) :=
  @coordinates_roundtrip_nonempty_rows String _ exData 3 ⟨3, 3, [1, 1, 1], [2, 1, 0], [0, 1, 2, 3]⟩ (by decide)
    (by decide) (by decide) (by decide)
